import Mathlib

/-!
# Portfolio tracker — shallow embedding and verification

Shallow embedding of the core of `src/main.rs` of the portfolio-tracker
repository:

* `build_porfolio` (the valuation builder, `src/main.rs:280-309`),
* the price gap-filler `update_prices` (`src/main.rs:162-217`),
* the `delete_trade` HTTP handler (`src/main.rs:124-143`).

Modelling choices:

* `chrono::NaiveDate` is modelled by `Int` (day ordinal); `date.succ()` is
  `d + 1`, comparisons coincide.
* `BigDecimal` (arbitrary-precision decimal) is modelled by `ℚ`, in which
  decimal arithmetic is exact.
* `i64` trade amounts are modelled by `Int` (the claims under study do not
  concern word-size overflow).
* A Rust panic (out-of-bounds index on `trades[0]` / `prices[len-1]`) is
  modelled by returning `none`.
-/

/-- The `DailyPrice` record from `src/main.rs:261-265`. -/
structure DailyPrice where
  date : Int
  price : ℚ
  ticker : String
deriving DecidableEq, Repr

/-- The `Trade` record from `src/main.rs:267-272`. -/
structure Trade where
  date : Int
  amount : Int
  ticker : String
deriving DecidableEq, Repr

/-- The `Portfolio` record from `src/main.rs:274-278`. -/
structure Portfolio where
  date : Int
  amount_in_euros : ℚ
deriving DecidableEq, Repr

/-- The per-day trade lookup of the loop body (`src/main.rs:287-294`):
`trades.iter().filter(|trade| trade.date == portfolio_boot_date).next()`,
defaulting the added amount to 0. -/
def tradeDelta (trades : List Trade) (d : Int) : Int :=
  match (trades.filter (fun trade => trade.date == d)).head? with
  | some trade => trade.amount
  | none => 0

/-- The per-day price lookup of the loop body (`src/main.rs:295-298`):
`prices.iter().filter(|price| price.date == portfolio_boot_date).next()`. -/
def priceOfTheDay (prices : List DailyPrice) (d : Int) : Option DailyPrice :=
  (prices.filter (fun price => price.date == d)).head?

/-- The `while portfolio_boot_date <= last_price_date` loop of
`build_porfolio` (`src/main.rs:286-307`), with the cursor, the running
position and the accumulated output made explicit.  Each iteration adds the
first trade dated on the cursor day to the position, emits a point if a
price exists for the cursor day, and advances the cursor by one day. -/
def buildLoop (prices : List DailyPrice) (trades : List Trade)
    (last : Int) (cursor : Int) (pos : Int) : List Portfolio :=
  if h : cursor ≤ last then
    let pos' := pos + tradeDelta trades cursor
    let rest := buildLoop prices trades last (cursor + 1) pos'
    match priceOfTheDay prices cursor with
    | some price => { date := cursor, amount_in_euros := price.price * pos' } :: rest
    | none => rest
  else []
termination_by (last + 1 - cursor).toNat
decreasing_by
  omega

/-- Function `build_porfolio` (`src/main.rs:280-309`).  `trades[0]` and
`prices[prices.len() - 1]` panic when the respective list is empty; the
panic is modelled by `none`. -/
def build_porfolio (prices : List DailyPrice) (trades : List Trade) :
    Option (List Portfolio) :=
  match trades.head?, prices.getLast? with
  | some firstTrade, some lastPrice =>
      some (buildLoop prices trades lastPrice.date firstTrade.date 0)
  | _, _ => none

/-- Step-counted version of the `while` loop of `build_porfolio`
(`src/main.rs:286-307`): each unit of fuel pays for one loop iteration, and
`none` means the iteration budget was exhausted before the cursor exceeded
`last`.  Used to state termination of the loop. -/
def buildLoopFuel (prices : List DailyPrice) (trades : List Trade)
    (last : Int) (cursor : Int) (pos : Int) : Nat → Option (List Portfolio)
  | 0 => if cursor ≤ last then none else some []
  | fuel + 1 =>
    if cursor ≤ last then
      let pos' := pos + tradeDelta trades cursor
      match buildLoopFuel prices trades last (cursor + 1) pos' fuel with
      | none => none
      | some rest =>
        match priceOfTheDay prices cursor with
        | some price =>
            some ({ date := cursor, amount_in_euros := price.price * pos' } :: rest)
        | none => some rest
    else some []

/-- Day-walk sum of the per-day trade deltas over the inclusive day range
`[lo, hi]` — the total amount the loop of `build_porfolio` adds to
`portfolio_amount_in_units` while the cursor walks from `lo` to `hi`. -/
def deltaSum (trades : List Trade) (lo : Int) (hi : Int) : Int :=
  if h : lo ≤ hi then tradeDelta trades lo + deltaSum trades (lo + 1) hi
  else 0
termination_by (hi + 1 - lo).toNat
decreasing_by
  omega

/-- Sum of the amounts of every trade dated on or before `d` (the position
the specification describes). -/
def sumTradesUpTo (trades : List Trade) (d : Int) : Int :=
  ((trades.filter (fun trade => trade.date ≤ d)).map (fun trade => trade.amount)).sum

/-- Keep, for each calendar date, only the first trade in list order that
carries that date, dropping the later same-day trades. -/
def keepFirstPerDate : List Trade → List Trade
  | [] => []
  | trade :: rest =>
      trade :: keepFirstPerDate (rest.filter (fun other => other.date ≠ trade.date))
termination_by l => l.length
decreasing_by
  exact Nat.lt_succ_of_le (List.length_filter_le _ _)

/-- One stored price row for one ticker, as in the `prices` table
(`src/db.rs`): the date and the closing price. -/
structure PriceRow where
  date : Int
  price : ℚ
deriving DecidableEq, Repr

/-- Constant `chrono::naive::MIN_DATE`, the date `update_prices` substitutes when no
price is stored for the ticker (`src/main.rs:179`); any real calendar date
is far greater. -/
def MIN_DATE : Int := -100000000

/-- The `SELECT date from prices where ticker = ?1 ORDER BY date desc limit 1`
query of `update_prices` (`src/main.rs:165-174`): the greatest stored date
for the ticker, if any row exists. -/
def lastStoredDate (store : List PriceRow) : Option Int :=
  match store with
  | [] => none
  | _ :: _ => some ((store.map (fun row => row.date)).foldr max MIN_DATE)

/-- Variable `last_ticker_date` as computed in `update_prices` (`src/main.rs:175-180`):
the last stored date, or `chrono::naive::MIN_DATE` when nothing is stored. -/
def last_ticker_date (store : List PriceRow) : Int :=
  match lastStoredDate store with
  | some d => d
  | none => MIN_DATE

/-- Variable `api_output_size` as computed in `update_prices` (`src/main.rs:164` and
`src/main.rs:182-184`): starts as `"full"` and becomes `"compact"` when
`last_ticker_date > today - 100` days. -/
def api_output_size (store : List PriceRow) (today : Int) : String :=
  if last_ticker_date store > today + (-100) then "compact" else "full"

/-- The iterator `prices_to_insert` of `update_prices` (`src/main.rs:197-200`): the
provider rows whose date is strictly greater than `last_ticker_date`. -/
def prices_to_insert (apiData : List PriceRow) (store : List PriceRow) :
    List PriceRow :=
  apiData.filter (fun row => row.date > last_ticker_date store)

/-- The per-ticker effect of `update_prices` on the price store
(`src/main.rs:197-214`): every filtered provider row is inserted. -/
def update_prices (store : List PriceRow) (apiData : List PriceRow) :
    List PriceRow :=
  store ++ prices_to_insert apiData store

/-- The outcome `delete_trade` receives from storage (`src/main.rs:125-136`):
either a database error or the number of rows affected. -/
inductive DeleteOutcome where
  | dbError : DeleteOutcome
  | rowsAffected : Nat → DeleteOutcome
deriving DecidableEq, Repr

/-- HTTP status codes used by `delete_trade`. -/
inductive StatusCode where
  | ok : StatusCode
  | notFound : StatusCode
  | internalServerError : StatusCode
deriving DecidableEq, Repr

/-- The `delete_trade` handler (`src/main.rs:124-143`): a database error
yields 500; otherwise 200 exactly when one row was deleted, else 404. -/
def delete_trade (outcome : DeleteOutcome) : StatusCode :=
  match outcome with
  | .dbError => .internalServerError
  | .rowsAffected deleted_count =>
      if deleted_count = 1 then .ok else .notFound

/-- Number of rows the SQL `DELETE FROM trades WHERE id = ?1` affects:
the number of stored rows carrying the requested id. -/
def deletedCount (storedIds : List Int) (trade_id : Int) : Nat :=
  (storedIds.filter (fun i => i == trade_id)).length

/-- Function `build_porfolio` with the loop run on an explicit iteration budget. -/
def build_porfolio_fuel (prices : List DailyPrice) (trades : List Trade)
    (fuel : Nat) : Option (List Portfolio) :=
  match trades.head?, prices.getLast? with
  | some firstTrade, some lastPrice =>
      buildLoopFuel prices trades lastPrice.date firstTrade.date 0 fuel
  | _, _ => none

/-! ## Helper lemmas about the loop -/

/-- A successful per-day price lookup returns a stored price carrying
exactly the looked-up date. -/
theorem priceOfTheDay_eq_some {prices : List DailyPrice} {d : Int}
    {p : DailyPrice} (h : priceOfTheDay prices d = some p) :
    p ∈ prices ∧ p.date = d := by
  unfold priceOfTheDay at h
  have hmem := List.mem_of_mem_head? h
  rw [List.mem_filter] at hmem
  exact ⟨hmem.1, by simpa using hmem.2⟩

/-- Unfolding `deltaSum` one day at the left end of the range. -/
theorem deltaSum_cons {trades : List Trade} {lo hi : Int} (h : lo ≤ hi) :
    deltaSum trades lo hi = tradeDelta trades lo + deltaSum trades (lo + 1) hi := by
  rw [deltaSum]
  simp [h]

/-- Value of `deltaSum` over an empty day range. -/
theorem deltaSum_empty {trades : List Trade} {lo hi : Int} (h : hi < lo) :
    deltaSum trades lo hi = 0 := by
  rw [deltaSum]
  simp [not_le.mpr h]

/-- Every point the loop emits lies in the walked day range, has a stored
price for its date, and its value is that price times the running position
accumulated from `pos` through the emitted day. -/
theorem mem_buildLoop {prices : List DailyPrice} {trades : List Trade} :
    ∀ {last cursor pos : Int} {pt : Portfolio},
      pt ∈ buildLoop prices trades last cursor pos →
      cursor ≤ pt.date ∧ pt.date ≤ last ∧
      ∃ p, priceOfTheDay prices pt.date = some p ∧
        pt.amount_in_euros = p.price * (pos + deltaSum trades cursor pt.date) := by
  intro last cursor pos pt hmem
  rw [buildLoop] at hmem
  by_cases hc : cursor ≤ last
  · simp only [hc, dite_true] at hmem
    have hrec : ∀ pt ∈ buildLoop prices trades last (cursor + 1)
        (pos + tradeDelta trades cursor),
        cursor ≤ pt.date ∧ pt.date ≤ last ∧
        ∃ p, priceOfTheDay prices pt.date = some p ∧
          pt.amount_in_euros = p.price *
            (pos + deltaSum trades cursor pt.date) := by
      intro pt hpt
      obtain ⟨h1, h2, p, hp, hval⟩ := mem_buildLoop hpt
      refine ⟨by omega, h2, p, hp, ?_⟩
      rw [hval, deltaSum_cons (by omega : cursor ≤ pt.date)]
      push_cast
      ring
    rcases hp : priceOfTheDay prices cursor with _ | price
    · rw [hp] at hmem
      exact hrec pt hmem
    · rw [hp] at hmem
      rcases List.mem_cons.mp hmem with heq | htail
      · subst heq
        refine ⟨le_refl _, hc, price, hp, ?_⟩
        rw [deltaSum_cons (le_refl cursor), deltaSum_empty (by omega)]
        push_cast
        ring
      · exact hrec pt htail
  · simp only [hc, dite_false] at hmem
    exact absurd hmem (List.not_mem_nil pt)
termination_by last cursor _ _ => (last + 1 - cursor).toNat
decreasing_by
  omega

/-- The dates of the points the loop emits are strictly ascending. -/
theorem buildLoop_pairwise {prices : List DailyPrice} {trades : List Trade} :
    ∀ {last cursor pos : Int},
      (buildLoop prices trades last cursor pos).Pairwise
        (fun a b => a.date < b.date) := by
  intro last cursor pos
  rw [buildLoop]
  by_cases hc : cursor ≤ last
  · simp only [hc, dite_true]
    have htail : (buildLoop prices trades last (cursor + 1)
        (pos + tradeDelta trades cursor)).Pairwise
        (fun a b => a.date < b.date) := buildLoop_pairwise
    rcases hp : priceOfTheDay prices cursor with _ | price
    · exact htail
    · refine List.Pairwise.cons ?_ htail
      intro pt hpt
      have := (mem_buildLoop hpt).1
      simpa using by omega
  · simp [hc]
termination_by last cursor _ => (last + 1 - cursor).toNat
decreasing_by
  omega

/-- A strictly ascending list whose members all occur in a weakly
ascending list is a sublist of it. -/
theorem sublist_of_strict_chain_subset :
    ∀ (l₂ l₁ : List Int), l₁.Pairwise (· < ·) → l₂.Pairwise (· ≤ ·) →
      (∀ a ∈ l₁, a ∈ l₂) → l₁.Sublist l₂ := by
  intro l₂
  induction l₂ with
  | nil =>
    intro l₁ _ _ hsub
    rcases l₁ with _ | ⟨a, l₁⟩
    · exact List.Sublist.refl []
    · exact absurd (hsub a (List.mem_cons_self a l₁)) (List.not_mem_nil a)
  | cons b l₂ ih =>
    intro l₁ h₁ h₂ hsub
    rcases l₁ with _ | ⟨a, l₁⟩
    · exact List.nil_sublist _
    · have hb : ∀ x ∈ l₂, b ≤ x := fun x hx => (List.pairwise_cons.mp h₂).1 x hx
      have h₂' : l₂.Pairwise (· ≤ ·) := (List.pairwise_cons.mp h₂).2
      have ha : ∀ x ∈ l₁, a < x := fun x hx => (List.pairwise_cons.mp h₁).1 x hx
      have h₁' : l₁.Pairwise (· < ·) := (List.pairwise_cons.mp h₁).2
      by_cases hab : a = b
      · subst hab
        refine List.Sublist.cons₂ a (ih l₁ h₁' h₂' ?_)
        intro x hx
        rcases List.mem_cons.mp (hsub x (List.mem_cons_of_mem a hx)) with hxa | hxl
        · exact absurd (hxa ▸ ha x hx) (lt_irrefl x)
        · exact hxl
      · have hath : a ∈ l₂ := by
          rcases List.mem_cons.mp (hsub a (List.mem_cons_self a l₁)) with h | h
          · exact absurd h hab
          · exact h
        refine List.Sublist.cons b (ih (a :: l₁) h₁ h₂' ?_)
        intro x hx
        rcases List.mem_cons.mp hx with hxa | hxl
        · exact hxa ▸ hath
        · rcases List.mem_cons.mp (hsub x hx) with hxb | hxm
          · exfalso
            have h1 : a < x := ha x hxl
            have h2 : b ≤ a := hb a hath
            rw [hxb] at h1
            omega
          · exact hxm

/-- When no two trades share a date, the first-match lookup of the loop
returns the total amount traded on that date. -/
theorem tradeDelta_eq_sum_of_nodup :
    ∀ {trades : List Trade} {d : Int},
      (trades.map (fun t => t.date)).Nodup →
      tradeDelta trades d =
        ((trades.filter (fun t => t.date == d)).map (fun t => t.amount)).sum := by
  intro trades d hnd
  induction trades with
  | nil => rfl
  | cons t rest ih =>
    rw [List.map_cons, List.nodup_cons] at hnd
    by_cases ht : t.date = d
    · have hrest : rest.filter (fun u => u.date == d) = [] := by
        refine List.filter_eq_nil_iff.mpr ?_
        intro u hu hud
        exact hnd.1 (by
          rw [List.mem_map]
          refine ⟨u, hu, ?_⟩
          have : u.date = d := by simpa using hud
          omega)
      simp [tradeDelta, List.filter_cons, ht, hrest]
    · have : (t.date == d) = false := by simpa using ht
      simp only [tradeDelta, List.filter_cons, this, Bool.false_eq_true, if_false]
      exact ih hnd.2

/-- Splitting the day-range filter at its left endpoint. -/
theorem sum_filter_range_split :
    ∀ (trades : List Trade) {lo hi : Int}, lo ≤ hi →
      ((trades.filter (fun t => decide (lo ≤ t.date) && decide (t.date ≤ hi))).map
          (fun t => t.amount)).sum =
        ((trades.filter (fun t => t.date == lo)).map (fun t => t.amount)).sum +
        ((trades.filter (fun t => decide (lo + 1 ≤ t.date) && decide (t.date ≤ hi))).map
          (fun t => t.amount)).sum := by
  intro trades lo hi hle
  induction trades with
  | nil => simp
  | cons t rest ih =>
    by_cases h1 : t.date = lo
    · have ha : lo ≤ t.date := by omega
      have hb : t.date ≤ hi := by omega
      have hc : ¬ (lo + 1 ≤ t.date) := by omega
      have e2 : (t.date == lo) = true := by simpa using h1
      simp only [List.filter_cons, ha, hb, hc, e2, decide_True, decide_False,
        Bool.and_self, if_true, Bool.false_and, Bool.and_false, Bool.false_eq_true,
        if_false, List.map_cons, List.sum_cons]
      rw [ih]
      ring
    · have e2 : (t.date == lo) = false := by simpa using h1
      by_cases h2 : lo + 1 ≤ t.date ∧ t.date ≤ hi
      · have ha : lo ≤ t.date := by omega
        have hc : lo + 1 ≤ t.date := h2.1
        have hb : t.date ≤ hi := h2.2
        simp only [List.filter_cons, ha, hb, hc, e2, decide_True, Bool.and_self,
          if_true, Bool.false_eq_true, if_false, List.map_cons, List.sum_cons]
        rw [ih]
        ring
      · have e1 : (decide (lo ≤ t.date) && decide (t.date ≤ hi)) = false := by
          rcases Decidable.em (lo ≤ t.date) with h | h
          · have : ¬ (t.date ≤ hi) := by omega
            simp [this]
          · simp [h]
        have e3 : (decide (lo + 1 ≤ t.date) && decide (t.date ≤ hi)) = false := by
          rcases Decidable.em (lo + 1 ≤ t.date) with h | h
          · have : ¬ (t.date ≤ hi) := by omega
            simp [this]
          · simp [h]
        simp only [List.filter_cons, e1, e2, e3, Bool.false_eq_true, if_false]
        exact ih

/-- When no two trades share a date, the loop's day-walk total over
`[lo, hi]` is the total amount of every trade dated in `[lo, hi]`. -/
theorem deltaSum_eq_sum_filter :
    ∀ {trades : List Trade} {lo hi : Int},
      (trades.map (fun t => t.date)).Nodup →
      deltaSum trades lo hi =
        ((trades.filter (fun t => decide (lo ≤ t.date) && decide (t.date ≤ hi))).map
            (fun t => t.amount)).sum := by
  intro trades lo hi hnd
  by_cases hc : lo ≤ hi
  · rw [deltaSum_cons hc, deltaSum_eq_sum_filter hnd,
      sum_filter_range_split trades hc, tradeDelta_eq_sum_of_nodup hnd]
  · rw [deltaSum_empty (by omega)]
    have : trades.filter (fun t => decide (lo ≤ t.date) && decide (t.date ≤ hi)) = [] := by
      refine List.filter_eq_nil_iff.mpr ?_
      intro t _
      simp
      intro h
      omega
    rw [this]
    rfl
termination_by trades lo hi => (hi + 1 - lo).toNat
decreasing_by
  omega

/-- Dropping trades dated on a day other than `d` does not change the
first-match lookup for day `d`. -/
theorem tradeDelta_filter_ne (rest : List Trade) {d e : Int} (h : d ≠ e) :
    tradeDelta (rest.filter (fun u => u.date ≠ e)) d = tradeDelta rest d := by
  unfold tradeDelta
  rw [List.filter_filter]
  have : ∀ a ∈ rest, ((a.date == d) && decide (a.date ≠ e)) = (a.date == d) := by
    intro a _
    by_cases had : a.date = d
    · simp [had, h]
    · simp [had]
  rw [List.filter_congr this]

/-- The first-match lookup sees only the first trade of each date: removing
the later same-day trades leaves every per-day delta unchanged. -/
theorem tradeDelta_keepFirstPerDate :
    ∀ (trades : List Trade) (d : Int),
      tradeDelta (keepFirstPerDate trades) d = tradeDelta trades d := by
  intro trades d
  match trades with
  | [] => rw [keepFirstPerDate]
  | trade :: rest =>
    rw [keepFirstPerDate]
    by_cases hd : trade.date = d
    · unfold tradeDelta
      simp [List.filter_cons, hd]
    · have hne : (trade.date == d) = false := by simpa using hd
      unfold tradeDelta
      simp only [List.filter_cons, hne, Bool.false_eq_true, if_false]
      have ih := tradeDelta_keepFirstPerDate
        (rest.filter (fun other => other.date ≠ trade.date)) d
      unfold tradeDelta at ih
      rw [ih]
      have := tradeDelta_filter_ne rest (d := d) (e := trade.date) (by omega)
      unfold tradeDelta at this
      rw [this]
termination_by trades _ => trades.length
decreasing_by
  exact Nat.lt_succ_of_le (List.length_filter_le _ _)

/-- The loop output depends on the trades only through the per-day lookup. -/
theorem buildLoop_congr_trades {prices : List DailyPrice}
    {ts₁ ts₂ : List Trade} (h : ∀ d, tradeDelta ts₁ d = tradeDelta ts₂ d) :
    ∀ {last cursor pos : Int},
      buildLoop prices ts₁ last cursor pos = buildLoop prices ts₂ last cursor pos := by
  intro last cursor pos
  rw [buildLoop, buildLoop]
  by_cases hc : cursor ≤ last
  · simp only [hc, dite_true, h cursor]
    rw [buildLoop_congr_trades h]
  · simp [hc]
termination_by last cursor _ => (last + 1 - cursor).toNat
decreasing_by
  omega

/-- With at least `(last + 1 - cursor).toNat` units of fuel — one per
calendar day left to walk — the step-counted loop finishes and agrees with
the loop: the cursor gains one day per iteration, so the iteration count is
exactly the number of days from `cursor` through `last`. -/
theorem buildLoopFuel_adequate {prices : List DailyPrice} {trades : List Trade} :
    ∀ (fuel : Nat) {last cursor pos : Int},
      (last + 1 - cursor).toNat ≤ fuel →
      buildLoopFuel prices trades last cursor pos fuel =
        some (buildLoop prices trades last cursor pos) := by
  intro fuel
  induction fuel with
  | zero =>
    intro last cursor pos hfuel
    have hc : ¬ cursor ≤ last := by omega
    rw [buildLoop]
    simp [buildLoopFuel, hc]
  | succ fuel ih =>
    intro last cursor pos hfuel
    rw [buildLoop]
    by_cases hc : cursor ≤ last
    · have hrec := @ih last (cursor + 1) (pos + tradeDelta trades cursor) (by omega)
      simp only [buildLoopFuel, hc, if_true, hrec, hc, dite_true]
      rcases priceOfTheDay prices cursor with _ | price
      · rfl
      · rfl
    · simp [buildLoopFuel, hc]

/-! ## Helper lemmas about the price store -/

/-- Function `last_ticker_date` is the fold of `max` over the stored dates, whether
or not any row is stored. -/
theorem last_ticker_date_eq_foldr (store : List PriceRow) :
    last_ticker_date store = (store.map (fun row => row.date)).foldr max MIN_DATE := by
  rcases store with _ | ⟨row, rest⟩
  · rfl
  · rfl

/-- Every element is at most the `max`-fold of its list. -/
theorem le_foldr_max : ∀ {l : List Int} {a init : Int}, a ∈ l → a ≤ l.foldr max init := by
  intro l
  induction l with
  | nil =>
    intro a init ha
    exact absurd ha (List.not_mem_nil a)
  | cons b rest ih =>
    intro a init ha
    rcases List.mem_cons.mp ha with hab | har
    · simp [hab, le_max_iff]
    · simp only [List.foldr_cons, le_max_iff]
      exact Or.inr (ih har)

/-- The base value bounds the `max`-fold from below. -/
theorem init_le_foldr_max : ∀ (l : List Int) (init : Int), init ≤ l.foldr max init := by
  intro l init
  induction l with
  | nil => simp
  | cons b rest ih =>
    simp only [List.foldr_cons, le_max_iff]
    exact Or.inr ih

/-- The `max`-fold of an appended list is the `max` of the folds. -/
theorem foldr_max_append (l₁ l₂ : List Int) (init : Int) :
    (l₁ ++ l₂).foldr max init = max (l₁.foldr max init) (l₂.foldr max init) := by
  induction l₁ with
  | nil =>
    have := init_le_foldr_max l₂ init
    simp only [List.nil_append, List.foldr_nil]
    omega
  | cons b rest ih =>
    simp only [List.cons_append, List.foldr_cons, ih]
    omega

/-! ## Claim theorems -/

/-- C2: with an empty trade list or an empty price list, `build_porfolio`
does not return an empty result — it hits the out-of-bounds index
`trades[0]` (resp. `prices[prices.len() - 1]`) and panics, modelled here by
`none`.  This theorem evaluates the code at the failing inputs: the claim
(and §7 of the specification) requires an empty result instead. -/
theorem build_porfolio_empty_input_panics :
    (∀ prices : List DailyPrice, build_porfolio prices [] = none) ∧
    (∀ trades : List Trade, build_porfolio [] trades = none) := by
  constructor
  · intro prices
    unfold build_porfolio
    cases prices.getLast? <;> rfl
  · intro trades
    unfold build_porfolio
    cases trades.head? <;> rfl

/-- C4: only the first trade of each calendar date is ever applied by the
valuation builder: dropping every later same-day trade leaves the whole
output (hence every emitted value) unchanged, for all inputs. -/
theorem build_porfolio_first_trade_per_day
    (prices : List DailyPrice) (trades : List Trade) :
    build_porfolio prices trades = build_porfolio prices (keepFirstPerDate trades) := by
  rcases trades with _ | ⟨t0, rest⟩
  · rw [keepFirstPerDate]
  · have hk : keepFirstPerDate (t0 :: rest) =
        t0 :: keepFirstPerDate (rest.filter (fun other => other.date ≠ t0.date)) := by
      rw [keepFirstPerDate]
    rw [hk]
    unfold build_porfolio
    rcases prices.getLast? with _ | pl
    · rfl
    · simp only [List.head?_cons, Option.some.injEq]
      apply buildLoop_congr_trades
      intro d
      have h1 := tradeDelta_keepFirstPerDate (t0 :: rest) d
      rw [hk] at h1
      exact h1.symm

/-- C6: when the first trade is dated strictly after the last price
observation, the loop condition fails immediately and `build_porfolio`
returns the empty sequence. -/
theorem build_porfolio_start_after_end
    {prices : List DailyPrice} {trades : List Trade} {t0 : Trade} {pl : DailyPrice}
    (hh : trades.head? = some t0) (hl : prices.getLast? = some pl)
    (hgt : pl.date < t0.date) :
    build_porfolio prices trades = some [] := by
  simp only [build_porfolio, hh, hl, Option.some.injEq]
  rw [buildLoop]
  simp [not_le.mpr hgt]

/-- C6 witness: a trade on day 5 with the only price on day 0 yields an
empty output. -/
theorem build_porfolio_start_after_end_witness :
    build_porfolio [⟨0, 1, "IWDA.AMS"⟩] [⟨5, 10, "IWDA.AMS"⟩] = some [] :=
  build_porfolio_start_after_end rfl rfl (by norm_num)

/-- C9: the valuation loop terminates — since the cursor advances by one
day per iteration, a fuel budget of exactly the number of calendar days
from the first trade date through the last price date lets the
step-counted loop finish with the same output as the loop. -/
theorem build_porfolio_terminates
    {prices : List DailyPrice} {trades : List Trade} {t0 : Trade} {pl : DailyPrice}
    (hh : trades.head? = some t0) (hl : prices.getLast? = some pl) :
    ∃ fuel : Nat, ∃ out : List Portfolio,
      fuel = (pl.date + 1 - t0.date).toNat ∧
      build_porfolio_fuel prices trades fuel = some out ∧
      build_porfolio prices trades = some out := by
  refine ⟨(pl.date + 1 - t0.date).toNat,
    buildLoop prices trades pl.date t0.date 0, rfl, ?_, ?_⟩
  · unfold build_porfolio_fuel
    rw [hh, hl]
    exact buildLoopFuel_adequate _ (le_refl _)
  · unfold build_porfolio
    rw [hh, hl]

/-- C9 witness: the example run terminates within its three-day budget. -/
theorem build_porfolio_terminates_witness :
    ∃ fuel : Nat, ∃ out : List Portfolio,
      fuel = ((6 : Int) + 1 - 4).toNat ∧
      build_porfolio_fuel [⟨4, 10, "IWDA.AMS"⟩, ⟨5, 11, "IWDA.AMS"⟩, ⟨6, 12, "IWDA.AMS"⟩]
        [⟨4, 10, "IWDA.AMS"⟩] fuel = some out ∧
      build_porfolio [⟨4, 10, "IWDA.AMS"⟩, ⟨5, 11, "IWDA.AMS"⟩, ⟨6, 12, "IWDA.AMS"⟩]
        [⟨4, 10, "IWDA.AMS"⟩] = some out :=
  @build_porfolio_terminates [⟨4, 10, "IWDA.AMS"⟩, ⟨5, 11, "IWDA.AMS"⟩, ⟨6, 12, "IWDA.AMS"⟩]
    [⟨4, 10, "IWDA.AMS"⟩] ⟨4, 10, "IWDA.AMS"⟩ ⟨6, 12, "IWDA.AMS"⟩ rfl rfl

/-- C1 fails as stated when two trades share a date: with the non-empty,
date-ascending inputs trades = [(day 0, +10), (day 0, +5)] and prices =
[(day 0, 1.00)], the builder emits value 10 (only the first same-day trade
is applied), while the sum of trade amounts with date ≤ day 0 is 15, so
the emitted value is not that sum times the close. -/
theorem build_porfolio_position_sum_counterexample :
    ([⟨0, 10, "IWDA.AMS"⟩, ⟨0, 5, "IWDA.AMS"⟩] : List Trade).Pairwise
      (fun a b => a.date ≤ b.date) ∧
    build_porfolio [⟨0, 1, "IWDA.AMS"⟩] [⟨0, 10, "IWDA.AMS"⟩, ⟨0, 5, "IWDA.AMS"⟩] =
      some [⟨0, 10⟩] ∧
    sumTradesUpTo [⟨0, 10, "IWDA.AMS"⟩, ⟨0, 5, "IWDA.AMS"⟩] 0 = 15 ∧
    (10 : ℚ) ≠ (1 : ℚ) * ((15 : Int) : ℚ) := by
  refine ⟨?_, ?_, ?_, ?_⟩
  · simp
  · simp [build_porfolio, buildLoop, tradeDelta, priceOfTheDay, List.filter] <;> norm_num
  · simp [sumTradesUpTo, List.filter] <;> norm_num
  · norm_num

/-- C1 (amended: the trade dates are strictly ascending, i.e. at most one
trade per date — with same-day duplicates only the first is applied, see
C4): the running position accumulated by the loop from the first trade date
through any day `D` equals the sum of the amounts of all trades dated ≤ D,
and every emitted value is the day's close times that position. -/
theorem build_porfolio_position_spec
    {prices : List DailyPrice} {trades : List Trade} {t0 : Trade}
    {out : List Portfolio}
    (hh : trades.head? = some t0)
    (hasc : trades.Pairwise (fun a b => a.date < b.date))
    (hout : build_porfolio prices trades = some out) :
    (∀ D : Int, deltaSum trades t0.date D = sumTradesUpTo trades D) ∧
    ∀ pt ∈ out, ∃ p, priceOfTheDay prices pt.date = some p ∧
      pt.amount_in_euros = p.price * ((sumTradesUpTo trades pt.date : Int) : ℚ) := by
  have hnd : (trades.map (fun t => t.date)).Nodup := by
    refine List.pairwise_map.mpr ?_
    exact hasc.imp (fun hab => ne_of_lt hab)
  have hge : ∀ t ∈ trades, t0.date ≤ t.date := by
    rcases trades with _ | ⟨a, tail⟩
    · intro t ht
      exact absurd ht (List.not_mem_nil t)
    · have ha : a = t0 := by simpa using hh
      subst ha
      intro t ht
      rcases List.mem_cons.mp ht with h | h
      · exact h ▸ le_refl _
      · exact le_of_lt ((List.pairwise_cons.mp hasc).1 t h)
  have hpos : ∀ D : Int, deltaSum trades t0.date D = sumTradesUpTo trades D := by
    intro D
    have hfeq : trades.filter (fun t => decide (t0.date ≤ t.date) && decide (t.date ≤ D))
        = trades.filter (fun t => decide (t.date ≤ D)) :=
      List.filter_congr (fun t ht => by simp [hge t ht])
    rw [deltaSum_eq_sum_filter hnd, hfeq]
    rfl
  refine ⟨hpos, ?_⟩
  rcases hpl : prices.getLast? with _ | pl
  · simp only [build_porfolio, hh, hpl] at hout
    exact Option.noConfusion hout
  · simp only [build_porfolio, hh, hpl, Option.some.injEq] at hout
    subst hout
    intro pt hpt
    obtain ⟨h1, _, p, hp, hval⟩ := mem_buildLoop hpt
    refine ⟨p, hp, ?_⟩
    rw [hval, hpos pt.date]
    push_cast
    ring

/-- C1 witness: the specification's own example — one +10 trade on day 4,
closes 10, 11, 12 on days 4, 5, 6 — yields values 100, 110, 120, each equal
to the close times the cumulative traded amount. -/
theorem build_porfolio_position_spec_witness :
    (∀ D : Int, deltaSum [⟨4, 10, "IWDA.AMS"⟩] 4 D =
      sumTradesUpTo [⟨4, 10, "IWDA.AMS"⟩] D) ∧
    ∀ pt ∈ ([⟨4, 100⟩, ⟨5, 110⟩, ⟨6, 120⟩] : List Portfolio), ∃ p,
      priceOfTheDay [⟨4, 10, "IWDA.AMS"⟩, ⟨5, 11, "IWDA.AMS"⟩, ⟨6, 12, "IWDA.AMS"⟩]
        pt.date = some p ∧
      pt.amount_in_euros = p.price *
        ((sumTradesUpTo [⟨4, 10, "IWDA.AMS"⟩] pt.date : Int) : ℚ) :=
  @build_porfolio_position_spec
    [⟨4, 10, "IWDA.AMS"⟩, ⟨5, 11, "IWDA.AMS"⟩, ⟨6, 12, "IWDA.AMS"⟩]
    [⟨4, 10, "IWDA.AMS"⟩] ⟨4, 10, "IWDA.AMS"⟩ [⟨4, 100⟩, ⟨5, 110⟩, ⟨6, 120⟩]
    rfl (by simp)
    (by simp [build_porfolio, buildLoop, tradeDelta, priceOfTheDay, List.filter] <;> norm_num)

/-- C3: for non-empty inputs with ascending price dates, the output dates
are strictly ascending, form a sublist of the price dates, and lie between
the first trade date and the last price date. -/
theorem build_porfolio_output_dates
    {prices : List DailyPrice} {trades : List Trade} {t0 : Trade} {pl : DailyPrice}
    {out : List Portfolio}
    (hh : trades.head? = some t0) (hl : prices.getLast? = some pl)
    (hpasc : prices.Pairwise (fun a b => a.date ≤ b.date))
    (hout : build_porfolio prices trades = some out) :
    (out.map (fun pt => pt.date)).Pairwise (· < ·) ∧
    (out.map (fun pt => pt.date)).Sublist (prices.map (fun p => p.date)) ∧
    ∀ pt ∈ out, t0.date ≤ pt.date ∧ pt.date ≤ pl.date := by
  simp only [build_porfolio, hh, hl, Option.some.injEq] at hout
  subst hout
  refine ⟨List.pairwise_map.mpr buildLoop_pairwise, ?_, ?_⟩
  · apply sublist_of_strict_chain_subset
    · exact List.pairwise_map.mpr buildLoop_pairwise
    · exact List.pairwise_map.mpr hpasc
    · intro a ha
      obtain ⟨pt, hpt, hpta⟩ := List.mem_map.mp ha
      obtain ⟨_, _, p, hp, _⟩ := mem_buildLoop hpt
      obtain ⟨hpmem, hpdate⟩ := priceOfTheDay_eq_some hp
      exact List.mem_map.mpr ⟨p, hpmem, hpta ▸ hpdate⟩
  · intro pt hpt
    obtain ⟨h1, h2, _⟩ := mem_buildLoop hpt
    exact ⟨h1, h2⟩

/-- C3 witness: on the example run the output dates 4, 5, 6 are strictly
ascending, a sublist of the price dates, and within the bounds. -/
theorem build_porfolio_output_dates_witness :
    (([⟨4, 100⟩, ⟨5, 110⟩, ⟨6, 120⟩] : List Portfolio).map (fun pt => pt.date)).Pairwise
      (· < ·) ∧
    (([⟨4, 100⟩, ⟨5, 110⟩, ⟨6, 120⟩] : List Portfolio).map (fun pt => pt.date)).Sublist
      (([⟨4, 10, "IWDA.AMS"⟩, ⟨5, 11, "IWDA.AMS"⟩, ⟨6, 12, "IWDA.AMS"⟩] : List DailyPrice).map
        (fun p => p.date)) ∧
    ∀ pt ∈ ([⟨4, 100⟩, ⟨5, 110⟩, ⟨6, 120⟩] : List Portfolio),
      (⟨4, 10, "IWDA.AMS"⟩ : Trade).date ≤ pt.date ∧
      pt.date ≤ (⟨6, 12, "IWDA.AMS"⟩ : DailyPrice).date :=
  @build_porfolio_output_dates
    [⟨4, 10, "IWDA.AMS"⟩, ⟨5, 11, "IWDA.AMS"⟩, ⟨6, 12, "IWDA.AMS"⟩]
    [⟨4, 10, "IWDA.AMS"⟩] ⟨4, 10, "IWDA.AMS"⟩ ⟨6, 12, "IWDA.AMS"⟩
    [⟨4, 100⟩, ⟨5, 110⟩, ⟨6, 120⟩] rfl rfl (by simp)
    (by simp [build_porfolio, buildLoop, tradeDelta, priceOfTheDay, List.filter] <;> norm_num)

/-- C5: a walked day with no price observation contributes no output point,
and the running position nevertheless carries forward: every emitted value
is the close times the day-walk position accumulated over every day since
the first trade date, priced or not. -/
theorem build_porfolio_price_gap
    {prices : List DailyPrice} {trades : List Trade} {t0 : Trade}
    {out : List Portfolio} {d : Int}
    (hh : trades.head? = some t0)
    (hout : build_porfolio prices trades = some out)
    (hd : priceOfTheDay prices d = none) :
    (∀ pt ∈ out, pt.date ≠ d) ∧
    ∀ pt ∈ out, ∃ p, priceOfTheDay prices pt.date = some p ∧
      pt.amount_in_euros = p.price * ((deltaSum trades t0.date pt.date : Int) : ℚ) := by
  rcases hpl : prices.getLast? with _ | pl
  · simp only [build_porfolio, hh, hpl] at hout
    exact Option.noConfusion hout
  · simp only [build_porfolio, hh, hpl, Option.some.injEq] at hout
    subst hout
    constructor
    · intro pt hpt heq
      obtain ⟨_, _, p, hp, _⟩ := mem_buildLoop hpt
      rw [heq, hd] at hp
      exact Option.noConfusion hp
    · intro pt hpt
      obtain ⟨_, _, p, hp, hval⟩ := mem_buildLoop hpt
      refine ⟨p, hp, ?_⟩
      rw [hval]
      push_cast
      ring

/-- C5 witness: with prices only on days 4 and 6, no point is emitted for
day 5, and the two emitted points carry the forwarded position. -/
theorem build_porfolio_price_gap_witness :
    (∀ pt ∈ ([⟨4, 100⟩, ⟨6, 120⟩] : List Portfolio), pt.date ≠ 5) ∧
    ∀ pt ∈ ([⟨4, 100⟩, ⟨6, 120⟩] : List Portfolio), ∃ p,
      priceOfTheDay [⟨4, 10, "IWDA.AMS"⟩, ⟨6, 12, "IWDA.AMS"⟩] pt.date = some p ∧
      pt.amount_in_euros = p.price *
        ((deltaSum [⟨4, 10, "IWDA.AMS"⟩] 4 pt.date : Int) : ℚ) :=
  @build_porfolio_price_gap [⟨4, 10, "IWDA.AMS"⟩, ⟨6, 12, "IWDA.AMS"⟩]
    [⟨4, 10, "IWDA.AMS"⟩] ⟨4, 10, "IWDA.AMS"⟩ [⟨4, 100⟩, ⟨6, 120⟩] 5 rfl
    (by simp [build_porfolio, buildLoop, tradeDelta, priceOfTheDay, List.filter] <;> norm_num)
    rfl

/-- C7: the gap-filler inserts only provider rows dated strictly after the
last stored date (hence after every stored row), a second run against the
same provider data inserts zero rows, and no duplicate date is ever
created. -/
theorem update_prices_spec (store apiData : List PriceRow)
    (hs : (store.map (fun row => row.date)).Nodup)
    (ha : (apiData.map (fun row => row.date)).Nodup) :
    (∀ row ∈ prices_to_insert apiData store,
      last_ticker_date store < row.date ∧ ∀ old ∈ store, old.date < row.date) ∧
    prices_to_insert apiData (update_prices store apiData) = [] ∧
    ((update_prices store apiData).map (fun row => row.date)).Nodup := by
  have hins : ∀ row ∈ prices_to_insert apiData store,
      last_ticker_date store < row.date := by
    intro row hrow
    have hmem := List.mem_filter.mp hrow
    simpa using hmem.2
  have hold_le : ∀ old ∈ store, old.date ≤ last_ticker_date store := by
    intro old hold
    rw [last_ticker_date_eq_foldr]
    exact le_foldr_max (List.mem_map.mpr ⟨old, hold, rfl⟩)
  have hsplit : last_ticker_date (update_prices store apiData) =
      max ((store.map (fun row => row.date)).foldr max MIN_DATE)
        (((prices_to_insert apiData store).map (fun row => row.date)).foldr max MIN_DATE) := by
    rw [last_ticker_date_eq_foldr]
    unfold update_prices
    rw [List.map_append, foldr_max_append]
  have hL_le : last_ticker_date store ≤
      last_ticker_date (update_prices store apiData) := by
    rw [hsplit, ← last_ticker_date_eq_foldr]
    exact le_max_left _ _
  refine ⟨fun row hrow => ⟨hins row hrow,
      fun old hold => lt_of_le_of_lt (hold_le old hold) (hins row hrow)⟩, ?_, ?_⟩
  · refine List.filter_eq_nil_iff.mpr ?_
    intro a hapi
    simp only [decide_eq_true_eq, not_lt]
    by_contra hgt
    push_neg at hgt
    have haL : last_ticker_date store < a.date := lt_of_le_of_lt hL_le hgt
    have hains : a ∈ prices_to_insert apiData store :=
      List.mem_filter.mpr ⟨hapi, by simpa using haL⟩
    have hdate_mem : a.date ∈ (prices_to_insert apiData store).map
        (fun row => row.date) := List.mem_map.mpr ⟨a, hains, rfl⟩
    have hle : a.date ≤ last_ticker_date (update_prices store apiData) := by
      rw [hsplit]
      exact le_trans (le_foldr_max hdate_mem) (le_max_right _ _)
    omega
  · unfold update_prices
    rw [List.map_append]
    refine (List.nodup_append).mpr ⟨hs, ?_, ?_⟩
    · exact ha.sublist ((List.filter_sublist apiData).map (fun row => row.date))
    · intro a has hai
      obtain ⟨old, hold, holda⟩ := List.mem_map.mp has
      obtain ⟨row, hrow, hrowa⟩ := List.mem_map.mp hai
      have h1 : old.date ≤ last_ticker_date store := hold_le old hold
      have h2 : last_ticker_date store < row.date := hins row hrow
      omega

/-- C7 witness: with one stored row on day 3 and provider data for days
3 and 4, only day 4 is inserted, and re-running inserts nothing. -/
theorem update_prices_spec_witness :
    (∀ row ∈ prices_to_insert [⟨3, 1⟩, ⟨4, 2⟩] [⟨3, 1⟩],
      last_ticker_date [⟨3, 1⟩] < row.date ∧
      ∀ old ∈ ([⟨3, 1⟩] : List PriceRow), old.date < row.date) ∧
    prices_to_insert [⟨3, 1⟩, ⟨4, 2⟩] (update_prices [⟨3, 1⟩] [⟨3, 1⟩, ⟨4, 2⟩]) = [] ∧
    ((update_prices [⟨3, 1⟩] [⟨3, 1⟩, ⟨4, 2⟩]).map (fun row => row.date)).Nodup :=
  update_prices_spec [⟨3, 1⟩] [⟨3, 1⟩, ⟨4, 2⟩] (by simp) (by simp)

/-- C8 fails as stated at the boundary: with the last stored price dated
exactly 100 calendar days before today, the code requests a "full" history
although that date is not more than 100 days in the past (and a price is
stored), so "full" is not equivalent to "more than 100 days old or no
price stored". -/
theorem api_output_size_boundary_counterexample :
    ¬ (api_output_size [⟨-100, 1⟩] 0 = "full" ↔
        ((0 : Int) - last_ticker_date [⟨-100, 1⟩] > 100 ∨
          ([⟨-100, 1⟩] : List PriceRow) = [])) := by
  have h2 : last_ticker_date [⟨-100, 1⟩] = -100 := by
    norm_num [last_ticker_date, lastStoredDate, MIN_DATE]
  have h1 : api_output_size [⟨-100, 1⟩] 0 = "full" := by
    unfold api_output_size
    rw [h2]
    norm_num
  intro h
  rcases h.mp h1 with hgt | hnil
  · rw [h2] at hgt
    norm_num at hgt
  · exact List.noConfusion hnil

/-- C8 (amended: the boundary day counts as "full"): the gap-filler
requests a "full" history exactly when no price is stored or the last known
date is at least 100 calendar days before the current date, and a "compact"
history exactly when a stored price is less than 100 days old. -/
theorem api_output_size_spec (store : List PriceRow) (today : Int)
    (hreal : MIN_DATE ≤ today - 100) :
    (api_output_size store today = "full" ↔
      (store = [] ∨ last_ticker_date store ≤ today - 100)) ∧
    (api_output_size store today = "compact" ↔
      (store ≠ [] ∧ today - 100 < last_ticker_date store)) := by
  have hlast_nil : store = [] → last_ticker_date store = MIN_DATE := by
    intro hnil
    subst hnil
    rfl
  unfold api_output_size
  by_cases hc : last_ticker_date store > today + (-100)
  · have hne : store ≠ [] := by
      intro hnil
      rw [hlast_nil hnil] at hc
      omega
    rw [if_pos hc]
    refine ⟨⟨fun hstr => absurd hstr (by decide), fun hor => ?_⟩,
      ⟨fun _ => ⟨hne, by omega⟩, fun _ => rfl⟩⟩
    exfalso
    rcases hor with hnil | hle
    · exact hne hnil
    · omega
  · rw [if_neg hc]
    push_neg at hc
    refine ⟨⟨fun _ => Or.inr (by omega), fun _ => rfl⟩,
      ⟨fun hstr => absurd hstr (by decide), fun hand => ?_⟩⟩
    exfalso
    omega

/-- C8 witness: a stored price 50 days old yields a "compact" request, and
"full" is correctly refused. -/
theorem api_output_size_spec_witness :
    (api_output_size [⟨950, 1⟩] 1000 = "full" ↔
      (([⟨950, 1⟩] : List PriceRow) = [] ∨ last_ticker_date [⟨950, 1⟩] ≤ 1000 - 100)) ∧
    (api_output_size [⟨950, 1⟩] 1000 = "compact" ↔
      (([⟨950, 1⟩] : List PriceRow) ≠ [] ∧ 1000 - 100 < last_ticker_date [⟨950, 1⟩])) :=
  api_output_size_spec [⟨950, 1⟩] 1000 (by norm_num [MIN_DATE])

/-- C10: given a storage outcome without a database error, the handler
returns OK exactly when one row was deleted, and NOT FOUND whenever the
deleted-row count differs from one — in particular for an id with no
matching stored trade. -/
theorem delete_trade_spec (storedIds : List Int) (trade_id : Int) :
    (delete_trade (.rowsAffected (deletedCount storedIds trade_id)) = .ok ↔
      deletedCount storedIds trade_id = 1) ∧
    (deletedCount storedIds trade_id ≠ 1 →
      delete_trade (.rowsAffected (deletedCount storedIds trade_id)) = .notFound) ∧
    (trade_id ∉ storedIds →
      delete_trade (.rowsAffected (deletedCount storedIds trade_id)) = .notFound) := by
  have hnotmem : trade_id ∉ storedIds → deletedCount storedIds trade_id = 0 := by
    intro hnm
    unfold deletedCount
    rw [List.filter_eq_nil_iff.mpr ?_]
    · rfl
    · intro i hi
      simp only [beq_iff_eq]
      intro heq
      exact hnm (heq ▸ hi)
  simp only [delete_trade]
  by_cases hone : deletedCount storedIds trade_id = 1
  · rw [if_pos hone]
    refine ⟨⟨fun _ => hone, fun _ => rfl⟩, fun hne => absurd hone hne, fun hnm => ?_⟩
    rw [hnotmem hnm] at hone
    exact absurd hone (by norm_num)
  · rw [if_neg hone]
    exact ⟨⟨fun hok => absurd hok (by decide), fun h1 => absurd h1 hone⟩,
      fun _ => rfl, fun _ => rfl⟩

/-- C10 witness: deleting id 7 when only id 5 is stored affects zero rows
and returns NOT FOUND. -/
theorem delete_trade_spec_witness :
    (delete_trade (.rowsAffected (deletedCount [5] 7)) = .ok ↔
      deletedCount [5] 7 = 1) ∧
    (deletedCount [5] 7 ≠ 1 →
      delete_trade (.rowsAffected (deletedCount [5] 7)) = .notFound) ∧
    ((7 : Int) ∉ ([5] : List Int) →
      delete_trade (.rowsAffected (deletedCount [5] 7)) = .notFound) :=
  delete_trade_spec [5] 7
